import Mathlib

/-!
Verification of the ripnstitch firmware pack/unpack tool (src/main.rs).

The embedding models Rust strings as lists of characters, file contents as
lists of byte values (natural numbers), and the filesystem as a partial map
from path names to file contents.  Machine integers (u64) are natural
numbers; where Rust release-mode arithmetic can wrap, the wrap is written
explicitly modulo 2 ^ 64.  The SHA-256 digest of a byte sequence is modeled
by the byte sequence that is fed to the hasher: two digests agree exactly
when the hashed byte sequences agree, which is the level at which the
specification speaks about digests.
-/

namespace RipNStitch

/-- The modulus of u64 arithmetic. -/
def U64 : Nat := 2 ^ 64

/-- Wrapping u64 subtraction, the release-mode semantics of Rust `a - b` on u64
operands already reduced below 2 ^ 64. -/
def wsub (a b : Nat) : Nat := (a % U64 + U64 - b % U64) % U64

/-- The record `FirmwarePart` from src/main.rs, lines 9-16.  Field names are kept;
`padding_byte` is a byte value (the Rust field has type u8). -/
structure FirmwarePart where
  name : List Char
  offset : Nat
  size : Nat
  padding_byte : Nat
  use_custom_padding : Bool
  has_explicit_size : Bool
deriving DecidableEq

/-- Rust `char::is_whitespace`, restricted to the ASCII whitespace characters
that the tool can meet in a config file. -/
def is_rust_whitespace (c : Char) : Bool :=
  c = ' ' || c = '\t' || c = '\n' || c = '\r'

/-- Rust `str::trim`: remove leading and trailing whitespace. -/
def trim (s : List Char) : List Char :=
  ((s.dropWhile is_rust_whitespace).reverse.dropWhile is_rust_whitespace).reverse

/-- Rust `str::split(',')`: split on commas, keeping empty fields. -/
def split_comma : List Char → List (List Char)
  | [] => [[]]
  | c :: rest =>
    match split_comma rest with
    | [] => [[]]
    | f :: fs => if c = ',' then [] :: f :: fs else (c :: f) :: fs

/-- Rust `str::starts_with` for a literal pattern. -/
def starts_with (s p : List Char) : Bool := List.isPrefixOf p s

/-- Rust `char::to_digit c radix`: digit value of `c` in the given radix
(48, 57, 97, 122, 65 and 90 are the code points of 0, 9, a, z, A and Z). -/
def to_digit (c : Char) (radix : Nat) : Option Nat :=
  let v : Option Nat :=
    if 48 ≤ c.toNat ∧ c.toNat ≤ 57 then some (c.toNat - 48)
    else if 97 ≤ c.toNat ∧ c.toNat ≤ 122 then some (c.toNat - 97 + 10)
    else if 65 ≤ c.toNat ∧ c.toNat ≤ 90 then some (c.toNat - 65 + 10)
    else none
  match v with
  | some d => if d < radix then some d else none
  | none => none

/-- The digit-accumulation loop of Rust `u64::from_str_radix`: checked
multiply-add, failing on an invalid digit or on overflow past 2 ^ 64 - 1. -/
def digits_loop (radix : Nat) (acc : Nat) : List Char → Except String Nat
  | [] => .ok acc
  | c :: cs =>
    match to_digit c radix with
    | none => .error "invalid digit"
    | some d =>
      if acc * radix + d < U64 then digits_loop radix (acc * radix + d) cs
      else .error "number too large to fit in target type"

/-- Rust `u64::from_str_radix` (also `u64::from_str`, which is radix 10): an
optional leading plus sign, then a non-empty run of digits, checked against
u64 range.  A leading minus sign is not stripped for an unsigned target, so it
fails as an invalid digit. -/
def from_str_radix (s : List Char) (radix : Nat) : Except String Nat :=
  match s with
  | [] => .error "cannot parse integer from empty string"
  | c :: cs =>
    let digits := if c = '+' then cs else c :: cs
    match digits with
    | [] => .error "invalid digit found in string"
    | _ => digits_loop radix 0 digits

/-- The function `parse_number` from src/main.rs, lines 32-44: trim, empty maps
to 0, a 0x/0X prefix selects hexadecimal on the remainder, otherwise decimal. -/
def parse_number (s : List Char) : Except String Nat :=
  let s := trim s
  if s.isEmpty then .ok 0
  else if starts_with s ['0', 'x'] || starts_with s ['0', 'X'] then
    from_str_radix (s.drop 2) 16
  else
    from_str_radix s 10

/-- The size-field computation of `read_config` (src/main.rs, lines 109-113)
on the fields after the offset: an explicit size exactly when a third field is
present and non-blank. -/
def parse_size_field (rest : List (List Char)) : Except String (Nat × Bool) :=
  match rest with
  | f2 :: _ =>
    if (trim f2).isEmpty then pure ((0 : Nat), false)
    else do
      let v ← parse_number f2
      pure (v, true)
  | [] => pure ((0 : Nat), false)

/-- The padding-byte computation of `read_config` (src/main.rs, lines
115-119): the low 8 bits of the parsed fourth field when present, 0xFF
otherwise. -/
def parse_padding_field (rest : List (List Char)) : Except String Nat :=
  match rest with
  | _ :: f3 :: _ => do
    let v ← parse_number f3
    pure (v % 256)
  | _ => pure (0xFF : Nat)

/-- One iteration of the config-reading loop of `read_config` (src/main.rs,
lines 95-129): `none` when the line is skipped (blank, comment, or fewer than
two fields), `some part` when a part record is pushed, and an error when a
numeric field is malformed. -/
def parse_line (line0 : List Char) : Except String (Option FirmwarePart) :=
  let line := trim line0
  if line.isEmpty then .ok none
  else if starts_with line ['#'] then .ok none
  else
    match split_comma line with
    | f0 :: f1 :: rest => do
      let offset ← parse_number f1
      let sz ← parse_size_field rest
      let padding_byte ← parse_padding_field rest
      pure (some {
        name := trim f0
        offset := offset
        size := sz.1
        padding_byte := padding_byte
        use_custom_padding := decide (2 ≤ rest.length)
        has_explicit_size := sz.2 })
    | _ => .ok none

/-- The parsing loop of `read_config` over the lines of the config file:
collects the accepted parts in line order, aborting on the first parse
failure. -/
def parse_config_lines : List (List Char) → Except String (List FirmwarePart)
  | [] => .ok []
  | l :: ls => do
    let head ← parse_line l
    let rest ← parse_config_lines ls
    match head with
    | some p => pure (p :: rest)
    | none => pure rest

/-- The filesystem visible to the tool: maps a path to the byte content of the
file at that path, or `none` when no such file exists. -/
def Fs : Type := (List Char) → Option (List Nat)

/-- The function `get_file_size` from src/main.rs, lines 46-48, with `none` as
the error case of `fs::metadata`. -/
def get_file_size (fs : Fs) (path : List Char) : Option Nat :=
  (fs path).map List.length

/-- The companion file name `<name>.bin` of a part. -/
def bin_name (name : List Char) : List Char := name ++ ['.', 'b', 'i', 'n']

/-- The `total_size` computation of `calculate_sizes` (src/main.rs, lines
55-64): the source image size in unpack mode (the tool reads it from file
metadata; here it is passed in as `image_size`), otherwise the maximum of
`offset + size` over the parts with an explicit size, defaulting to 0. -/
def total_size_calc (parts : List FirmwarePart) (is_unpack : Bool)
    (image_size : Nat) : Nat :=
  if is_unpack then image_size
  else ((parts.filter (·.has_explicit_size)).map
    (fun p => (p.offset + p.size) % U64)).foldr max 0

/-- The body of the resolution loop of `calculate_sizes` (src/main.rs, lines
66-81) for the part at index `i`.  Only the offsets of the original list are
read by the loop, so passing the original `parts` is faithful to the in-place
mutation of the source.  The u64 subtractions wrap modulo 2 ^ 64. -/
def resolve_size (parts : List FirmwarePart) (is_unpack : Bool)
    (total_size : Nat) (fs : Fs) (i : Nat) (p : FirmwarePart) : FirmwarePart :=
  if p.has_explicit_size then p
  else if i + 1 < parts.length then
    { p with size := wsub ((parts.getD (i + 1) p).offset) p.offset }
  else if is_unpack ∧ 0 < total_size then
    { p with size := wsub total_size p.offset }
  else if is_unpack = false then
    match get_file_size fs (bin_name p.name) with
    | some n => { p with size := n }
    | none => p
  else p

/-- The function `calculate_sizes` from src/main.rs, lines 50-83. -/
def calculate_sizes (parts : List FirmwarePart) (is_unpack : Bool) (fs : Fs)
    (image_size : Nat) : List FirmwarePart :=
  parts.mapIdx (fun i p =>
    resolve_size parts is_unpack (total_size_calc parts is_unpack image_size)
      fs i p)

/-- The function `read_config` from src/main.rs, lines 85-146: parse the config
lines, then resolve sizes. -/
def read_config (content_lines : List (List Char)) (is_unpack : Bool) (fs : Fs)
    (image_size : Nat) : Except String (List FirmwarePart) := do
  let parts ← parse_config_lines content_lines
  pure (calculate_sizes parts is_unpack fs image_size)

/-- The copy loop of `unpack_firmware` (src/main.rs, lines 159-171) for one
part: starting at position `pos` of the image with `remaining` bytes still to
copy, read chunks of at most 4096 bytes; a read of 0 bytes (end of file) stops
the loop.  Returns the bytes written to the output file (which are also the
bytes fed to the hasher) together with the final value of `remaining`. -/
def unpack_copy (image : List Nat) (pos remaining : Nat) : List Nat × Nat :=
  if h : remaining = 0 then ([], remaining)
  else
    let to_read := min remaining 4096
    let chunk := (image.drop pos).take to_read
    if h2 : chunk.length = 0 then ([], remaining)
    else
      let next := unpack_copy image (pos + chunk.length) (remaining - chunk.length)
      (chunk ++ next.1, next.2)
termination_by remaining
decreasing_by
  exact Nat.sub_lt (Nat.pos_of_ne_zero h) (Nat.pos_of_ne_zero h2)

/-- The per-part console line of `unpack_firmware` (src/main.rs, lines
173-179): the part name, the reported byte count `part.size - remaining`, and
the digest, modeled by the byte sequence fed to the hasher. -/
structure UnpackReport where
  name : List Char
  bytes_copied : Nat
  digest : List Nat
deriving DecidableEq

/-- The body of the per-part loop of `unpack_firmware` (src/main.rs, lines
155-179): seek to the offset, run the copy loop, report. The first component
is the content written to the output file `<name>.bin`. -/
def unpack_part (image : List Nat) (p : FirmwarePart) : List Nat × UnpackReport :=
  let r := unpack_copy image p.offset p.size
  (r.1, { name := p.name, bytes_copied := p.size - r.2, digest := r.1 })

/-- Creating or truncating a file: the filesystem after `File::create` and a
full write of `content` at `path`. -/
def update_fs (fs : Fs) (path : List Char) (content : List Nat) : Fs :=
  fun q => if q = path then some content else fs q

/-- The function `unpack_firmware` from src/main.rs, lines 148-183: process the
parts in order, writing one output file per part; returns the final filesystem
and the per-part reports. -/
def unpack_firmware (image : List Nat) (parts : List FirmwarePart) (fs : Fs) :
    Fs × List UnpackReport :=
  match parts with
  | [] => (fs, [])
  | p :: rest =>
    let r := unpack_part image p
    let fs1 := update_fs fs (bin_name p.name) r.1
    let r2 := unpack_firmware image rest fs1
    (r2.1, r.2 :: r2.2)

/-- The fill loop of `pack_firmware` (src/main.rs, lines 199-205): write
`remaining` bytes of 0xFF in chunks of at most 4096. -/
def fill_ff (remaining : Nat) : List Nat :=
  if h : remaining = 0 then []
  else
    let to_write := min remaining 4096
    List.replicate to_write 0xFF ++ fill_ff (remaining - to_write)
termination_by remaining
decreasing_by
  exact Nat.sub_lt (Nat.pos_of_ne_zero h)
    (Nat.lt_min.mpr ⟨Nat.pos_of_ne_zero h, by norm_num⟩)

/-- The per-part copy loop of `pack_firmware` (src/main.rs, lines 214-233):
read chunks of at most 4096 bytes from the input file, cap the bytes written
at `size` in total (`written` bytes already written), stop on end of input or
when the cap is reached.  Returns the bytes written (also fed to the hasher). -/
def pack_copy (input : List Nat) (written size : Nat) : List Nat :=
  if h : input.length = 0 then []
  else
    let chunk := input.take 4096
    let bytes_read := chunk.length
    let to_write := if size < written + bytes_read then size - written else bytes_read
    let data := chunk.take to_write
    if size ≤ written + to_write then data
    else data ++ pack_copy (input.drop 4096) (written + to_write) size
termination_by input.length
decreasing_by
  simp only [List.length_drop]
  exact Nat.sub_lt (Nat.pos_of_ne_zero h) (by norm_num)

/-- Writing `data` at offset `off` of a file whose current content is `img`
(seek followed by a full write): bytes before `off` are kept, a seek past the
end implicitly zero-fills the gap, bytes after the written range are kept. -/
def write_at (img : List Nat) (off : Nat) (data : List Nat) : List Nat :=
  img.take off ++ List.replicate (off - img.length) 0 ++ data ++
    img.drop (off + data.length)

/-- The per-part console line of `pack_firmware` (src/main.rs, lines 247-262):
part name, bytes written from the input file, number of padding bytes applied
(0 in the unpadded branch), and the digest, modeled by the byte sequence fed
to the hasher. -/
structure PackReport where
  name : List Char
  bytes_written : Nat
  padded : Nat
  digest : List Nat
deriving DecidableEq

/-- The body of the per-part loop of `pack_firmware` (src/main.rs, lines
208-266): a missing companion file is skipped with a warning (`none` report and
the image unchanged); otherwise the input is copied capped at `size`, then, if
the input was short, padded with `padding_byte` up to `size`. -/
def pack_part_step (fs : Fs) (img : List Nat) (p : FirmwarePart) :
    List Nat × Option PackReport :=
  match fs (bin_name p.name) with
  | none => (img, none)
  | some input =>
    let data := pack_copy input 0 p.size
    let written := data.length
    if written < p.size then
      let padding_size := p.size - written
      let region := data ++ List.replicate padding_size p.padding_byte
      (write_at img p.offset region,
       some { name := p.name, bytes_written := written, padded := padding_size,
              digest := region })
    else
      (write_at img p.offset data,
       some { name := p.name, bytes_written := written, padded := 0,
              digest := data })

/-- The per-part loop of `pack_firmware` over the whole part list, threading
the destination image. -/
def pack_parts (fs : Fs) (img : List Nat) : List FirmwarePart → List Nat × List PackReport
  | [] => (img, [])
  | p :: rest =>
    let s := pack_part_step fs img p
    let r := pack_parts fs s.1 rest
    (r.1, match s.2 with
          | some rep => rep :: r.2
          | none => r.2)

/-- The `max_size` computation of `pack_firmware` (src/main.rs, lines 190-194):
maximum of `offset + size` over all parts, 0 for an empty list; the u64
addition wraps modulo 2 ^ 64. -/
def max_size_calc (parts : List FirmwarePart) : Nat :=
  (parts.map (fun p => (p.offset + p.size) % U64)).foldr max 0

/-- The function `pack_firmware` from src/main.rs, lines 185-269: create the
destination of `max_size` bytes, fill it with 0xFF, then process the parts in
order.  Returns the final image and the per-part reports. -/
def pack_firmware (fs : Fs) (parts : List FirmwarePart) :
    List Nat × List PackReport :=
  pack_parts fs (fill_ff (max_size_calc parts)) parts

/-- The byte range of length `n` starting at `off` in `l` (clipped at the end
of `l`). -/
def slice (l : List Nat) (off n : Nat) : List Nat := (l.drop off).take n

/-- The byte region that packing writes for a part whose companion file
exists (the input capped at `size`, padded with `padding_byte` up to `size`),
or `none` when the file is missing and the part is skipped. -/
def part_region (fs : Fs) (p : FirmwarePart) : Option (List Nat) :=
  match fs (bin_name p.name) with
  | none => none
  | some input =>
    some (input.take p.size ++
      List.replicate (p.size - (input.take p.size).length) p.padding_byte)

/-- A placeholder part used as the default value of list lookups in theorem
statements. -/
def dpart : FirmwarePart :=
  { name := [], offset := 0, size := 0, padding_byte := 0,
    use_custom_padding := false, has_explicit_size := false }

/-- An empty filesystem. -/
def fs_empty : Fs := fun _ => none

/-- The resolver example of the specification: part A at offset 0, no
explicit size. -/
def c2A : FirmwarePart :=
  { name := ['A'], offset := 0, size := 0, padding_byte := 0xFF,
    use_custom_padding := false, has_explicit_size := false }

/-- The resolver example of the specification: part B at offset 0x40, no
explicit size. -/
def c2B : FirmwarePart :=
  { name := ['B'], offset := 0x40, size := 0, padding_byte := 0xFF,
    use_custom_padding := false, has_explicit_size := false }

/-- The resolver example of the specification: part C at offset 0x100, no
explicit size. -/
def c2C : FirmwarePart :=
  { name := ['C'], offset := 0x100, size := 0, padding_byte := 0xFF,
    use_custom_padding := false, has_explicit_size := false }

/-- A misordered layout: a part whose offset exceeds the next offset. -/
def c7X : FirmwarePart :=
  { name := ['X'], offset := 0x100, size := 0, padding_byte := 0xFF,
    use_custom_padding := false, has_explicit_size := false }

/-- The successor of the misordered part, at a smaller offset. -/
def c7Y : FirmwarePart :=
  { name := ['Y'], offset := 0x40, size := 0x10, padding_byte := 0xFF,
    use_custom_padding := false, has_explicit_size := true }

/-- A part used in the truncation example: offset 1, size 5. -/
def c3p : FirmwarePart :=
  { name := ['z'], offset := 1, size := 5, padding_byte := 0xFF,
    use_custom_padding := false, has_explicit_size := true }

/-- The padding example of the specification: size 16, padding byte 0. -/
def c4p : FirmwarePart :=
  { name := ['w'], offset := 0, size := 16, padding_byte := 0,
    use_custom_padding := true, has_explicit_size := true }

/-- A filesystem holding a 10-byte companion file for the padding example. -/
def c4fs : Fs :=
  update_fs fs_empty (bin_name ['w']) [1, 2, 3, 4, 5, 6, 7, 8, 9, 10]

/-- A part with a missing companion file, overlapping the next part. -/
def c5A : FirmwarePart :=
  { name := ['A'], offset := 0, size := 2, padding_byte := 0xFF,
    use_custom_padding := false, has_explicit_size := true }

/-- A part overlapping `c5A` whose companion file exists. -/
def c5B : FirmwarePart :=
  { name := ['B'], offset := 1, size := 1, padding_byte := 0xFF,
    use_custom_padding := false, has_explicit_size := true }

/-- A filesystem with a companion file for `c5B` only. -/
def c5fs : Fs := update_fs fs_empty (bin_name ['B']) [0x42]

/-- A part disjoint from `c5A` whose companion file exists. -/
def c5D : FirmwarePart :=
  { name := ['D'], offset := 2, size := 1, padding_byte := 0xFF,
    use_custom_padding := false, has_explicit_size := true }

/-- A filesystem with a companion file for `c5D` only. -/
def c5fsD : Fs := update_fs fs_empty (bin_name ['D']) [0x42]

/-- A round-trip example part: name x, offset 0, size 4, padding 0xAA. -/
def c1A : FirmwarePart :=
  { name := ['x'], offset := 0, size := 4, padding_byte := 0xAA,
    use_custom_padding := true, has_explicit_size := true }

/-- A second part with the same name x, offset 4, size 2. -/
def c1B : FirmwarePart :=
  { name := ['x'], offset := 4, size := 2, padding_byte := 0xFF,
    use_custom_padding := false, has_explicit_size := true }

/-- A filesystem with the shared companion file x.bin of 4 bytes. -/
def c1fs : Fs := update_fs fs_empty (bin_name ['x']) [1, 2, 3, 4]

/-- Distinct-name round-trip example parts. -/
def d1p : FirmwarePart :=
  { name := ['h'], offset := 0, size := 2, padding_byte := 0xAA,
    use_custom_padding := true, has_explicit_size := true }

/-- Second distinct-name round-trip example part. -/
def d2p : FirmwarePart :=
  { name := ['k'], offset := 4, size := 3, padding_byte := 0xBB,
    use_custom_padding := true, has_explicit_size := true }

/-- Companion files for the distinct-name round-trip example. -/
def dfs : Fs :=
  update_fs (update_fs fs_empty (bin_name ['h']) [1, 2, 9])
    (bin_name ['k']) [5, 6, 7]

/-- The part produced by the config line ",0x10", whose first field is blank. -/
def c8bad : FirmwarePart :=
  { name := [], offset := 0x10, size := 0, padding_byte := 0xFF,
    use_custom_padding := false, has_explicit_size := false }

/-- The part produced by the config line "hdr,0x10". -/
def c8p : FirmwarePart :=
  { name := ['h', 'd', 'r'], offset := 0x10, size := 0, padding_byte := 0xFF,
    use_custom_padding := false, has_explicit_size := false }

/-- The part produced by the config line "a,0,16," with a trailing comma. -/
def c10p : FirmwarePart :=
  { name := ['a'], offset := 0, size := 16, padding_byte := 0,
    use_custom_padding := true, has_explicit_size := true }

/-- The numeric value denoted by a digit string in the given radix. -/
def digits_value (radix : Nat) (s : List Char) : Nat :=
  s.foldl (fun acc c => acc * radix + (to_digit c radix).getD 0) 0

/-! ### Characterization of the chunked copy loops -/

theorem fill_ff_eq (n : Nat) : fill_ff n = List.replicate n 0xFF := by
  induction n using fill_ff.induct with
  | case1 => simp [fill_ff]
  | case2 n h tw ih =>
    rw [fill_ff]
    simp only [dif_neg h]
    rw [ih, ← List.replicate_add]
    congr 1
    omega

theorem unpack_copy_eq (image : List Nat) (pos remaining : Nat) :
    unpack_copy image pos remaining =
      (slice image pos remaining, remaining - (slice image pos remaining).length) := by
  induction pos, remaining using unpack_copy.induct image with
  | case1 pos =>
    simp [unpack_copy, slice]
  | case2 pos remaining h tr ch h2 =>
    rw [unpack_copy]
    simp only [dif_neg h, dif_pos h2]
    have hl2 : ((image.drop pos).take (min remaining 4096)).length = 0 := h2
    simp only [List.length_take, List.length_drop] at hl2
    have hrem : 0 < remaining := Nat.pos_of_ne_zero h
    have hdrop : image.drop pos = [] := List.drop_eq_nil_of_le (by omega)
    simp [slice, hdrop]
  | case3 pos remaining h tr ch h2 ih =>
    rw [unpack_copy]
    simp only [dif_neg h, dif_neg h2]
    have hch : ch = (image.drop pos).take (min remaining 4096) := rfl
    by_cases hlen : (image.drop pos).length ≤ min remaining 4096
    · -- the chunk is the whole tail of the image
      have hch2 : ch = image.drop pos := by
        rw [hch]; exact List.take_of_length_le hlen
      have hcl : ch.length = image.length - pos := by
        rw [hch2, List.length_drop]
      have hlen2 : image.length - pos ≤ min remaining 4096 := by
        have h3 := hlen
        rwa [List.length_drop] at h3
      have hdrop : image.drop (pos + ch.length) = [] :=
        List.drop_eq_nil_of_le (by omega)
      have hs2 : slice image (pos + ch.length) (remaining - ch.length) = [] := by
        simp [slice, hdrop]
      have hs1 : slice image pos remaining = ch := by
        show (image.drop pos).take remaining = ch
        have htail : (image.drop pos).take remaining = image.drop pos := by
          apply List.take_of_length_le
          rw [List.length_drop]
          omega
        rw [htail]
        exact hch2.symm
      rw [ih, hs1, hs2]
      simp
    · -- a full chunk was read and the loop continues
      push_neg at hlen
      have hchlen : ch.length = min remaining 4096 := by
        rw [hch, List.length_take]
        omega
      have hsplit : (image.drop pos).take remaining =
          ch ++ (image.drop (pos + ch.length)).take (remaining - ch.length) := by
        rw [← List.drop_drop]
        conv_lhs => rw [show remaining = ch.length + (remaining - ch.length) by omega]
        rw [List.take_add]
        congr 1
        rw [hchlen]
      rw [ih]
      refine Prod.ext ?_ ?_
      · show ch ++ slice image (pos + ch.length) (remaining - ch.length) =
          slice image pos remaining
        simp only [slice]
        exact hsplit.symm
      · show remaining - ch.length -
            (slice image (pos + ch.length) (remaining - ch.length)).length =
            remaining - (slice image pos remaining).length
        simp only [slice, hsplit, List.length_append]
        omega

theorem pack_copy_eq (input : List Nat) (written size : Nat)
    (hw : written ≤ size) :
    pack_copy input written size = input.take (size - written) := by
  revert hw
  induction input, written, size using pack_copy.induct with
  | case1 input written size h =>
    intro hw
    rw [pack_copy]
    simp only [dif_pos h]
    have hnil : input = [] := List.length_eq_zero.mp h
    simp [hnil]
  | case2 input written size h ch br tw hstop =>
    intro hw
    rw [pack_copy]
    simp only [dif_neg h]
    have hE : (List.take 4096 input).length = min 4096 input.length :=
      List.length_take 4096 input
    have hstop2 : size ≤ written +
        (if size < written + (List.take 4096 input).length then size - written
         else (List.take 4096 input).length) := hstop
    by_cases hcap : size < written + (List.take 4096 input).length
    · simp only [if_pos hcap] at hstop2 ⊢
      rw [if_pos hstop2, List.take_take, List.take_eq_take]
      omega
    · simp only [if_neg hcap] at hstop2 ⊢
      rw [if_pos hstop2, List.take_take, List.take_eq_take]
      omega
  | case3 input written size h ch br tw hstop ih =>
    intro hw
    rw [pack_copy]
    simp only [dif_neg h]
    have hE : (List.take 4096 input).length = min 4096 input.length :=
      List.length_take 4096 input
    have hstop2 : ¬ size ≤ written +
        (if size < written + (List.take 4096 input).length then size - written
         else (List.take 4096 input).length) := hstop
    by_cases hcap : size < written + (List.take 4096 input).length
    · exfalso
      simp only [if_pos hcap] at hstop2
      omega
    · simp only [if_neg hcap] at hstop2 ⊢
      rw [if_neg hstop2]
      have ih2 : written +
            (if _h : size < written + (List.take 4096 input).length then size - written
             else (List.take 4096 input).length) ≤ size →
          pack_copy (List.drop 4096 input)
            (written + (if _h : size < written + (List.take 4096 input).length then size - written
               else (List.take 4096 input).length)) size =
          (List.drop 4096 input).take (size -
            (written + (if _h : size < written + (List.take 4096 input).length then size - written
               else (List.take 4096 input).length))) := ih
      simp only [dif_neg hcap] at ih2
      rw [ih2 (by omega)]
      rw [List.take_length]
      by_cases hlen : input.length ≤ 4096
      · rw [List.drop_eq_nil_of_le hlen]
        simp only [List.take_nil, List.append_nil]
        rw [List.take_of_length_le hlen, List.take_of_length_le (by omega)]
      · push_neg at hlen
        conv_rhs => rw [show size - written = 4096 + (size - written - 4096) by omega]
        rw [List.take_add]
        have harith : size - (written + (List.take 4096 input).length) =
            size - written - 4096 := by omega
        rw [harith]

/-! ### Properties of seek-and-write and of byte-range slices -/

theorem write_at_of_le (img : List Nat) (off : Nat) (data : List Nat)
    (h : off ≤ img.length) :
    write_at img off data =
      img.take off ++ (data ++ img.drop (off + data.length)) := by
  rw [write_at, Nat.sub_eq_zero_of_le h]
  simp

theorem length_write_at (img : List Nat) (off : Nat) (data : List Nat)
    (h : off + data.length ≤ img.length) :
    (write_at img off data).length = img.length := by
  rw [write_at_of_le _ _ _ (by omega)]
  simp only [List.length_append, List.length_take, List.length_drop]
  omega

theorem slice_length (l : List Nat) (off n : Nat) :
    (slice l off n).length = min n (l.length - off) := by
  simp [slice, List.length_take, List.length_drop]

theorem slice_write_at_self (img : List Nat) (off : Nat) (data : List Nat)
    (h : off + data.length ≤ img.length) :
    slice (write_at img off data) off data.length = data := by
  rw [write_at_of_le _ _ _ (by omega), slice]
  have hT : (img.take off).length = off := by
    rw [List.length_take]; omega
  generalize hL : img.take off = L at hT ⊢
  rw [← hT, List.drop_left, List.take_left]

theorem slice_write_at_before (img : List Nat) (off a n : Nat) (data : List Nat)
    (hoff : off ≤ img.length) (h : a + n ≤ off) :
    slice (write_at img off data) a n = slice img a n := by
  rw [write_at_of_le _ _ _ hoff, slice, slice]
  have hT : (img.take off).length = off := by
    rw [List.length_take]; omega
  rw [List.drop_append_of_le_length (by rw [hT]; omega)]
  rw [List.take_append_of_le_length (by rw [List.length_drop, hT]; omega)]
  rw [List.drop_take, List.take_take]
  congr 1
  omega

theorem slice_write_at_after (img : List Nat) (off a n : Nat) (data : List Nat)
    (hoff : off ≤ img.length) (h : off + data.length ≤ a) :
    slice (write_at img off data) a n = slice img a n := by
  rw [write_at_of_le _ _ _ hoff, slice, slice]
  have hT : (img.take off).length = off := by
    rw [List.length_take]; omega
  have key : List.drop a (img.take off ++ (data ++ img.drop (off + data.length)))
      = img.drop a := by
    generalize hL : img.take off = L at hT
    have h1 : List.drop a (L ++ (data ++ img.drop (off + data.length)))
        = List.drop (a - off) (data ++ img.drop (off + data.length)) := by
      conv_lhs => rw [show a = L.length + (a - off) by omega]
      rw [List.drop_append]
    rw [h1]
    have h2 : List.drop (a - off) (data ++ img.drop (off + data.length))
        = List.drop (a - off - data.length) (img.drop (off + data.length)) := by
      conv_lhs => rw [show a - off = data.length + (a - off - data.length) by omega]
      rw [List.drop_append]
    rw [h2, List.drop_drop]
    congr 1
    omega
  rw [key]

theorem slice_replicate (N off n x : Nat) (h : off + n ≤ N) :
    slice (List.replicate N x) off n = List.replicate n x := by
  rw [slice, List.drop_replicate, List.take_replicate]
  congr 1
  omega

/-! ### The per-part pack step in closed form -/

theorem part_region_none (fs : Fs) (p : FirmwarePart)
    (h : fs (bin_name p.name) = none) : part_region fs p = none := by
  unfold part_region
  rw [h]

theorem part_region_length (fs : Fs) (p : FirmwarePart) (r : List Nat)
    (h : part_region fs p = some r) : r.length = p.size := by
  unfold part_region at h
  cases hf : fs (bin_name p.name) with
  | none => rw [hf] at h; cases h
  | some input =>
    rw [hf] at h
    simp only [Option.some.injEq] at h
    subst h
    simp only [List.length_append, List.length_take, List.length_replicate]
    omega

theorem pack_part_step_eq (fs : Fs) (img : List Nat) (p : FirmwarePart) :
    (pack_part_step fs img p).1 = (match part_region fs p with
      | none => img
      | some r => write_at img p.offset r) := by
  cases hf : fs (bin_name p.name) with
  | none =>
    unfold pack_part_step part_region
    rw [hf]
  | some input =>
    unfold pack_part_step part_region
    rw [hf]
    have hd : pack_copy input 0 p.size = input.take p.size := by
      have h0 := pack_copy_eq input 0 p.size (Nat.zero_le _)
      simpa using h0
    simp only [hd]
    by_cases hw : (input.take p.size).length < p.size
    · simp only [if_pos hw]
    · simp only [if_neg hw]
      have hz : p.size - (input.take p.size).length = 0 := by omega
      rw [hz]
      simp

theorem pack_parts_cons_fst (fs : Fs) (img : List Nat) (p : FirmwarePart)
    (rest : List FirmwarePart) :
    (pack_parts fs img (p :: rest)).1 =
      (pack_parts fs (pack_part_step fs img p).1 rest).1 := rfl

theorem pack_part_step_length (fs : Fs) (img : List Nat) (p : FirmwarePart)
    (hp : p.offset + p.size ≤ img.length) :
    (pack_part_step fs img p).1.length = img.length := by
  rw [pack_part_step_eq]
  cases hr : part_region fs p with
  | none => rfl
  | some r =>
    have hrl := part_region_length fs p r hr
    exact length_write_at _ _ _ (by omega)

theorem pack_parts_length (fs : Fs) (img : List Nat) (parts : List FirmwarePart)
    (hb : ∀ q ∈ parts, q.offset + q.size ≤ img.length) :
    (pack_parts fs img parts).1.length = img.length := by
  induction parts generalizing img with
  | nil => rfl
  | cons p rest ih =>
    rw [pack_parts_cons_fst]
    have hstep : (pack_part_step fs img p).1.length = img.length :=
      pack_part_step_length fs img p (hb p (by simp))
    rw [ih _ ?hb2]
    · exact hstep
    case hb2 =>
      intro q hq
      rw [hstep]
      exact hb q (List.mem_cons_of_mem _ hq)

theorem pack_part_step_slice_untouched (fs : Fs) (img : List Nat)
    (p : FirmwarePart) (a n : Nat)
    (hp : p.offset + p.size ≤ img.length)
    (hd : part_region fs p = none ∨ a + n ≤ p.offset ∨ p.offset + p.size ≤ a) :
    slice (pack_part_step fs img p).1 a n = slice img a n := by
  rw [pack_part_step_eq]
  cases hr : part_region fs p with
  | none => rfl
  | some r =>
    have hrl := part_region_length fs p r hr
    rcases hd with h1 | h2 | h3
    · rw [h1] at hr; cases hr
    · exact slice_write_at_before _ _ _ _ _ (by omega) h2
    · exact slice_write_at_after _ _ _ _ _ (by omega) (by omega)

theorem pack_parts_slice_untouched (fs : Fs) (img : List Nat)
    (parts : List FirmwarePart) (a n : Nat)
    (hb : ∀ q ∈ parts, q.offset + q.size ≤ img.length)
    (hd : ∀ q ∈ parts,
      part_region fs q = none ∨ a + n ≤ q.offset ∨ q.offset + q.size ≤ a) :
    slice (pack_parts fs img parts).1 a n = slice img a n := by
  induction parts generalizing img with
  | nil => rfl
  | cons p rest ih =>
    rw [pack_parts_cons_fst]
    have hplen : (pack_part_step fs img p).1.length = img.length :=
      pack_part_step_length fs img p (hb p (by simp))
    rw [ih _ ?hb2 ?hd2]
    · exact pack_part_step_slice_untouched fs img p a n (hb p (by simp))
        (hd p (by simp))
    case hb2 =>
      intro q hq
      rw [hplen]
      exact hb q (List.mem_cons_of_mem _ hq)
    case hd2 =>
      intro q hq
      exact hd q (List.mem_cons_of_mem _ hq)

theorem pack_parts_slice_written (fs : Fs) (l1 : List FirmwarePart)
    (p : FirmwarePart) (l2 : List FirmwarePart) (img : List Nat) (r : List Nat)
    (hb : ∀ q ∈ l1 ++ p :: l2, q.offset + q.size ≤ img.length)
    (hr : part_region fs p = some r)
    (hd2 : ∀ q ∈ l2, part_region fs q = none ∨
      p.offset + p.size ≤ q.offset ∨ q.offset + q.size ≤ p.offset) :
    slice (pack_parts fs img (l1 ++ p :: l2)).1 p.offset p.size = r := by
  induction l1 generalizing img with
  | nil =>
    simp only [List.nil_append]
    rw [pack_parts_cons_fst]
    have hp := hb p (by simp)
    have hrl := part_region_length fs p r hr
    have hstep : (pack_part_step fs img p).1 = write_at img p.offset r := by
      rw [pack_part_step_eq, hr]
    have hlen2 : (write_at img p.offset r).length = img.length :=
      length_write_at _ _ _ (by omega)
    rw [hstep, pack_parts_slice_untouched fs _ l2 p.offset p.size ?hb2 ?hd3]
    · rw [← hrl]
      exact slice_write_at_self img p.offset r (by omega)
    case hb2 =>
      intro q hq
      rw [hlen2]
      exact hb q (by simp [hq])
    case hd3 =>
      intro q hq
      exact hd2 q hq
  | cons q l1 ih =>
    simp only [List.cons_append]
    rw [pack_parts_cons_fst]
    have hq := hb q (by simp)
    have hqlen : (pack_part_step fs img q).1.length = img.length :=
      pack_part_step_length fs img q hq
    apply ih
    intro q2 hq2
    rw [hqlen]
    apply hb
    simp only [List.cons_append, List.mem_cons]
    right
    exact hq2

theorem pack_parts_congr (f1 f2 : Fs) (img : List Nat)
    (parts : List FirmwarePart)
    (h : ∀ p ∈ parts, part_region f1 p = part_region f2 p) :
    (pack_parts f1 img parts).1 = (pack_parts f2 img parts).1 := by
  induction parts generalizing img with
  | nil => rfl
  | cons p rest ih =>
    rw [pack_parts_cons_fst, pack_parts_cons_fst]
    have hstep : (pack_part_step f1 img p).1 = (pack_part_step f2 img p).1 := by
      rw [pack_part_step_eq, pack_part_step_eq, h p (by simp)]
    rw [hstep]
    exact ih _ (fun q hq => h q (List.mem_cons_of_mem _ hq))

theorem foldr_max_le_mem {l : List Nat} {x : Nat} (hx : x ∈ l) :
    x ≤ l.foldr max 0 := by
  induction l with
  | nil => cases hx
  | cons a l ih =>
    simp only [List.foldr_cons]
    rcases List.mem_cons.mp hx with h | h
    · subst h; exact le_max_left _ _
    · exact le_trans (ih h) (le_max_right _ _)

theorem mem_le_max_size (parts : List FirmwarePart) (p : FirmwarePart)
    (hp : p ∈ parts) : (p.offset + p.size) % U64 ≤ max_size_calc parts :=
  foldr_max_le_mem (List.mem_map_of_mem _ hp)

/-! ### The unpack engine in closed form -/

theorem unpack_part_eq (image : List Nat) (p : FirmwarePart) :
    unpack_part image p = (slice image p.offset p.size,
      { name := p.name,
        bytes_copied := (slice image p.offset p.size).length,
        digest := slice image p.offset p.size }) := by
  unfold unpack_part
  rw [unpack_copy_eq]
  have hl : (slice image p.offset p.size).length ≤ p.size := by
    rw [slice_length]; omega
  simp only [UnpackReport.mk.injEq, Prod.mk.injEq, eq_self_iff_true, true_and,
    and_true]
  omega

theorem bin_name_inj (a b : List Char) (h : bin_name a = bin_name b) :
    a = b :=
  List.append_cancel_right h

theorem unpack_firmware_fs_ne (image : List Nat) (parts : List FirmwarePart)
    (fs : Fs) (key : List Char)
    (h : ∀ q ∈ parts, key ≠ bin_name q.name) :
    (unpack_firmware image parts fs).1 key = fs key := by
  induction parts generalizing fs with
  | nil => rfl
  | cons p rest ih =>
    show (unpack_firmware image rest
      (update_fs fs (bin_name p.name) (unpack_part image p).1)).1 key = fs key
    rw [ih _ (fun q hq => h q (List.mem_cons_of_mem _ hq))]
    unfold update_fs
    rw [if_neg (h p (by simp))]

theorem unpack_firmware_fs_lookup (image : List Nat) (l1 : List FirmwarePart)
    (p : FirmwarePart) (l2 : List FirmwarePart) (fs : Fs)
    (h2 : ∀ q ∈ l2, q.name ≠ p.name) :
    (unpack_firmware image (l1 ++ p :: l2) fs).1 (bin_name p.name) =
      some (slice image p.offset p.size) := by
  induction l1 generalizing fs with
  | nil =>
    simp only [List.nil_append]
    show (unpack_firmware image l2
      (update_fs fs (bin_name p.name) (unpack_part image p).1)).1 (bin_name p.name) = _
    rw [unpack_firmware_fs_ne]
    · unfold update_fs
      rw [if_pos rfl, unpack_part_eq]
    · intro q hq hkey
      exact h2 q hq (bin_name_inj _ _ hkey).symm
  | cons q l1 ih =>
    simp only [List.cons_append]
    show (unpack_firmware image (l1 ++ p :: l2)
      (update_fs fs (bin_name q.name) (unpack_part image q).1)).1 (bin_name p.name) = _
    exact ih _

theorem unpack_firmware_reports_length (image : List Nat)
    (parts : List FirmwarePart) (fs : Fs) :
    (unpack_firmware image parts fs).2.length = parts.length := by
  induction parts generalizing fs with
  | nil => rfl
  | cons p rest ih =>
    show ((unpack_part image p).2 :: (unpack_firmware image rest _).2).length = _
    simp [ih]

/-! ### The size resolver, entry by entry -/

theorem wsub_eq_sub (a b : Nat) (hb : b ≤ a) (ha : a < U64) :
    wsub a b = a - b := by
  have hU : U64 = 18446744073709551616 := by norm_num [U64]
  unfold wsub
  rw [hU]
  rw [hU] at ha
  omega

theorem wsub_eq_wrap (a b : Nat) (hab : a < b) (hb : b < U64) :
    wsub a b = U64 - (b - a) := by
  have hU : U64 = 18446744073709551616 := by norm_num [U64]
  unfold wsub
  rw [hU]
  rw [hU] at hb
  omega

theorem calculate_sizes_getD (parts : List FirmwarePart) (is_unpack : Bool)
    (fs : Fs) (image_size : Nat) (i : Nat) (d : FirmwarePart)
    (hi : i < parts.length) :
    (calculate_sizes parts is_unpack fs image_size).getD i d =
      resolve_size parts is_unpack (total_size_calc parts is_unpack image_size)
        fs i (parts.getD i d) := by
  unfold calculate_sizes
  have hlen : i < (parts.mapIdx (fun j p => resolve_size parts is_unpack
      (total_size_calc parts is_unpack image_size) fs j p)).length := by
    rw [List.length_mapIdx]; exact hi
  rw [List.getD_eq_getElem _ _ hlen, List.getD_eq_getElem _ _ hi]
  have hmi := List.get_mapIdx parts (fun j p => resolve_size parts is_unpack
      (total_size_calc parts is_unpack image_size) fs j p) i hi
  simpa [List.get_eq_getElem] using hmi

theorem calculate_sizes_length (parts : List FirmwarePart) (is_unpack : Bool)
    (fs : Fs) (image_size : Nat) :
    (calculate_sizes parts is_unpack fs image_size).length = parts.length := by
  unfold calculate_sizes
  exact List.length_mapIdx

theorem resolve_size_frame (parts : List FirmwarePart) (is_unpack : Bool)
    (total_size : Nat) (fs : Fs) (i : Nat) (p : FirmwarePart) :
    (resolve_size parts is_unpack total_size fs i p).name = p.name ∧
    (resolve_size parts is_unpack total_size fs i p).offset = p.offset ∧
    (resolve_size parts is_unpack total_size fs i p).padding_byte =
      p.padding_byte ∧
    (resolve_size parts is_unpack total_size fs i p).use_custom_padding =
      p.use_custom_padding ∧
    (resolve_size parts is_unpack total_size fs i p).has_explicit_size =
      p.has_explicit_size ∧
    (p.has_explicit_size = true →
      resolve_size parts is_unpack total_size fs i p = p) := by
  unfold resolve_size
  split_ifs with h1 h2 h3 h4
  · simp
  · simp [h1]
  · simp [h1]
  · cases hm : get_file_size fs (bin_name p.name) <;> simp [h1]
  · simp [h1]

/-- C2: for every ordered part list, a non-last part lacking an explicit size
receives the size `next_part.offset - this_part.offset`, and a last such part
in unpack mode with positive total image size receives
`total_image_size - this_part.offset`; on the concrete layout
`[A@0, B@0x40, C@0x100]` with no explicit sizes, in unpack mode against a
0x200-byte image, the resolver produces sizes 0x40, 0xC0 and 0x100. -/
theorem claim_C2_resolver_rules :
    (∀ (parts : List FirmwarePart) (is_unpack : Bool) (fs : Fs)
        (image_size i : Nat) (d : FirmwarePart),
      i < parts.length →
      (parts.getD i d).has_explicit_size = false →
      ((i + 1 < parts.length →
        (parts.getD i d).offset ≤ (parts.getD (i + 1) d).offset →
        (parts.getD (i + 1) d).offset < U64 →
        ((calculate_sizes parts is_unpack fs image_size).getD i d).size =
          (parts.getD (i + 1) d).offset - (parts.getD i d).offset) ∧
       (i + 1 = parts.length → is_unpack = true → 0 < image_size →
        (parts.getD i d).offset ≤ image_size → image_size < U64 →
        ((calculate_sizes parts is_unpack fs image_size).getD i d).size =
          image_size - (parts.getD i d).offset))) ∧
    (calculate_sizes [c2A, c2B, c2C] true fs_empty 0x200).map
      (fun p => p.size) = [0x40, 0xC0, 0x100] := by
  constructor
  · intro parts is_unpack fs image_size i d hi hexp
    constructor
    · intro hnext hle hU
      rw [calculate_sizes_getD _ _ _ _ _ _ hi]
      unfold resolve_size
      rw [if_neg (by simpa using hexp), if_pos hnext]
      show wsub (parts.getD (i + 1) (parts.getD i d)).offset
        (parts.getD i d).offset = _
      have hd2 : parts.getD (i + 1) (parts.getD i d) = parts.getD (i + 1) d := by
        rw [List.getD_eq_getElem _ _ hnext, List.getD_eq_getElem _ _ hnext]
      rw [hd2]
      exact wsub_eq_sub _ _ hle hU
    · intro hlast hu him hle hU
      subst hu
      rw [calculate_sizes_getD _ _ _ _ _ _ hi]
      have htot : total_size_calc parts true image_size = image_size := by
        simp [total_size_calc]
      rw [htot]
      unfold resolve_size
      rw [if_neg (by simpa using hexp), if_neg (by omega), if_pos ⟨rfl, him⟩]
      show wsub image_size (parts.getD i d).offset = _
      exact wsub_eq_sub _ _ hle hU
  · decide

theorem claim_C2_resolver_rules_witness :
    ((calculate_sizes [c2A, c2B, c2C] true fs_empty 0x200).getD 0 dpart).size
      = 0x40 := by
  have h := (claim_C2_resolver_rules.1 [c2A, c2B, c2C] true fs_empty 0x200 0
    dpart (by decide) (by decide)).1 (by decide) (by decide) (by decide)
  exact h.trans (by decide)

/-- C7: a non-last part without explicit size whose offset exceeds the next
offset does not abort size resolution: the resolver silently assigns the
wrapped (invalid) size `2 ^ 64 - (this_part.offset - next_part.offset)` and
resolution still produces an entry for every part. -/
theorem claim_C7_misordered_silent (parts : List FirmwarePart)
    (is_unpack : Bool) (fs : Fs) (image_size i : Nat) (d : FirmwarePart)
    (hi : i + 1 < parts.length)
    (hexp : (parts.getD i d).has_explicit_size = false)
    (hlt : (parts.getD (i + 1) d).offset < (parts.getD i d).offset)
    (hU : (parts.getD i d).offset < U64) :
    ((calculate_sizes parts is_unpack fs image_size).getD i d).size =
      U64 - ((parts.getD i d).offset - (parts.getD (i + 1) d).offset) ∧
    (calculate_sizes parts is_unpack fs image_size).length = parts.length := by
  constructor
  · rw [calculate_sizes_getD _ _ _ _ _ _ (by omega)]
    unfold resolve_size
    rw [if_neg (by simpa using hexp), if_pos hi]
    show wsub (parts.getD (i + 1) (parts.getD i d)).offset
      (parts.getD i d).offset = _
    have hd2 : parts.getD (i + 1) (parts.getD i d) = parts.getD (i + 1) d := by
      rw [List.getD_eq_getElem _ _ hi, List.getD_eq_getElem _ _ hi]
    rw [hd2]
    exact wsub_eq_wrap _ _ hlt hU
  · exact calculate_sizes_length parts is_unpack fs image_size

theorem claim_C7_misordered_silent_witness :
    ((calculate_sizes [c7X, c7Y] false fs_empty 0).getD 0 dpart).size =
      U64 - 0xC0 ∧
    (calculate_sizes [c7X, c7Y] false fs_empty 0).length = 2 := by
  have h := claim_C7_misordered_silent [c7X, c7Y] false fs_empty 0 0 dpart
    (by decide) (by decide) (by decide) (by decide)
  exact ⟨h.1.trans (by decide), h.2⟩

/-- C9: size resolution mutates only the `size` field, and only of parts
lacking an explicit size: the resolved list has the same length, every entry
keeps its parsed name, offset, padding byte and flags, and an entry with an
explicit size is returned entirely unchanged. -/
theorem claim_C9_resolver_frame (parts : List FirmwarePart) (is_unpack : Bool)
    (fs : Fs) (image_size : Nat) :
    (calculate_sizes parts is_unpack fs image_size).length = parts.length ∧
    ∀ (i : Nat) (d : FirmwarePart), i < parts.length →
      (((calculate_sizes parts is_unpack fs image_size).getD i d).name =
          (parts.getD i d).name ∧
        ((calculate_sizes parts is_unpack fs image_size).getD i d).offset =
          (parts.getD i d).offset ∧
        ((calculate_sizes parts is_unpack fs image_size).getD i d).padding_byte =
          (parts.getD i d).padding_byte ∧
        ((calculate_sizes parts is_unpack fs image_size).getD i d).use_custom_padding =
          (parts.getD i d).use_custom_padding ∧
        ((calculate_sizes parts is_unpack fs image_size).getD i d).has_explicit_size =
          (parts.getD i d).has_explicit_size) ∧
      ((parts.getD i d).has_explicit_size = true →
        (calculate_sizes parts is_unpack fs image_size).getD i d =
          parts.getD i d) := by
  refine ⟨calculate_sizes_length parts is_unpack fs image_size, ?_⟩
  intro i d hi
  rw [calculate_sizes_getD _ _ _ _ _ _ hi]
  obtain ⟨h1, h2, h3, h4, h5, h6⟩ := resolve_size_frame parts is_unpack
    (total_size_calc parts is_unpack image_size) fs i (parts.getD i d)
  exact ⟨⟨h1, h2, h3, h4, h5⟩, h6⟩

theorem claim_C9_resolver_frame_witness :
    ((calculate_sizes [c7Y] true fs_empty 0x200).getD 0 dpart).name =
      (([c7Y] : List FirmwarePart).getD 0 dpart).name ∧
    (calculate_sizes [c7Y] true fs_empty 0x200).getD 0 dpart =
      ([c7Y] : List FirmwarePart).getD 0 dpart := by
  have h := (claim_C9_resolver_frame [c7Y] true fs_empty 0x200).2 0 dpart
    (by decide)
  exact ⟨h.1.1, h.2 (by decide)⟩

/-! ### Stream-engine claims: truncation and padding -/

/-- C3: during unpack, when the source image is exhausted before a part has
been fully copied, the copy stops early: the output file holds exactly the
bytes available from the offset onward, the reported byte count and the
digest cover exactly those bytes, and the next part is still processed.  The
embedding of the copy loop is total: the end-of-file path returns normally
rather than raising an error, matching the `break` in the source. -/
theorem claim_C3_unpack_truncation (image : List Nat) (p : FirmwarePart)
    (rest : List FirmwarePart) (fs : Fs)
    (htrunc : image.length < p.offset + p.size) :
    (unpack_part image p).1 = image.drop p.offset ∧
    (unpack_part image p).1.length = image.length - p.offset ∧
    (unpack_part image p).2.bytes_copied = image.length - p.offset ∧
    (unpack_part image p).2.digest = (unpack_part image p).1 ∧
    (unpack_firmware image (p :: rest) fs).2 =
      (unpack_part image p).2 ::
        (unpack_firmware image rest
          (update_fs fs (bin_name p.name) (unpack_part image p).1)).2 := by
  have hcontent : (unpack_part image p).1 = image.drop p.offset := by
    rw [unpack_part_eq]
    show slice image p.offset p.size = _
    rw [slice]
    apply List.take_of_length_le
    rw [List.length_drop]
    omega
  have hlen : (image.drop p.offset).length = image.length - p.offset :=
    List.length_drop _ _
  refine ⟨hcontent, ?_, ?_, ?_, rfl⟩
  · rw [hcontent]; exact hlen
  · rw [unpack_part_eq]
    show (slice image p.offset p.size).length = _
    rw [slice_length]
    omega
  · rw [unpack_part_eq]

theorem claim_C3_unpack_truncation_witness :
    (unpack_part [7, 8, 9] c3p).1 = [8, 9] ∧
    (unpack_part [7, 8, 9] c3p).2.bytes_copied = 2 := by
  have h := claim_C3_unpack_truncation [7, 8, 9] c3p [] fs_empty (by decide)
  exact ⟨h.1.trans (by decide), h.2.2.1.trans (by decide)⟩

/-- C4: during pack, a part whose input file is shorter than its size has a
destination region of exactly `size` bytes written for it: the input bytes
followed by `padding_byte` repeated, and the reported digest covers the full
`size`-byte region; the report also carries the input byte count and the
padding byte count. -/
theorem claim_C4_pack_padding (fs : Fs) (img : List Nat) (p : FirmwarePart)
    (input : List Nat)
    (hf : fs (bin_name p.name) = some input)
    (hshort : input.length < p.size) :
    ∃ rep, (pack_part_step fs img p).2 = some rep ∧
      rep.digest = input ++ List.replicate (p.size - input.length)
        p.padding_byte ∧
      rep.digest.length = p.size ∧
      rep.bytes_written = input.length ∧
      rep.padded = p.size - input.length ∧
      (p.offset + p.size ≤ img.length →
        slice (pack_part_step fs img p).1 p.offset p.size =
          input ++ List.replicate (p.size - input.length) p.padding_byte) := by
  have htake : input.take p.size = input := List.take_of_length_le (by omega)
  have hd : pack_copy input 0 p.size = input := by
    have h0 := pack_copy_eq input 0 p.size (Nat.zero_le _)
    simpa [htake] using h0
  have hregion : part_region fs p =
      some (input ++ List.replicate (p.size - input.length) p.padding_byte) := by
    unfold part_region
    rw [hf]
    simp only [htake]
  have hsnd : (pack_part_step fs img p).2 =
      some { name := p.name, bytes_written := input.length,
             padded := p.size - input.length,
             digest := input ++ List.replicate (p.size - input.length)
               p.padding_byte } := by
    unfold pack_part_step
    rw [hf]
    simp only [hd]
    rw [if_pos hshort]
  refine ⟨_, hsnd, rfl, ?_, rfl, rfl, ?_⟩
  · simp only [List.length_append, List.length_replicate]
    omega
  · intro hb
    rw [pack_part_step_eq, hregion]
    have hrl : (input ++ List.replicate (p.size - input.length)
        p.padding_byte).length = p.size := by
      simp only [List.length_append, List.length_replicate]
      omega
    have hself := slice_write_at_self img p.offset
      (input ++ List.replicate (p.size - input.length) p.padding_byte)
      (by rw [hrl]; omega)
    rw [hrl] at hself
    exact hself

theorem claim_C4_pack_padding_witness :
    ∃ rep, (pack_part_step c4fs (List.replicate 16 0xFF) c4p).2 = some rep ∧
      rep.digest = [1, 2, 3, 4, 5, 6, 7, 8, 9, 10, 0, 0, 0, 0, 0, 0] ∧
      rep.digest.length = 16 := by
  have h := claim_C4_pack_padding c4fs (List.replicate 16 0xFF) c4p
    [1, 2, 3, 4, 5, 6, 7, 8, 9, 10] (by decide) (by decide)
  obtain ⟨rep, h1, h2, h3, h4⟩ := h
  exact ⟨rep, h1, h2.trans (by decide), h3.trans (by decide)⟩

/-! ### The skipped-part claim -/

/-- C5 as stated is false: with the overlapping layout `[c5A, c5B]` in which
the companion file of `c5A` is missing and that of `c5B` exists, packing does
warn and skip `c5A`, but the final destination region of `c5A` is not the fill
byte repeated for its full size: the overlapping part `c5B` has written into
it. -/
theorem claim_C5_counterexample :
    c5fs (bin_name c5A.name) = none ∧
    slice (pack_firmware c5fs [c5A, c5B]).1 c5A.offset c5A.size ≠
      List.replicate c5A.size 0xFF := by
  have h1 : part_region c5fs c5A = none := by
    unfold part_region
    rfl
  have h2 : part_region c5fs c5B = some [0x42] := by
    unfold part_region
    rfl
  have himg : (pack_firmware c5fs [c5A, c5B]).1 = [0xFF, 0x42] := by
    show (pack_parts c5fs (fill_ff (max_size_calc [c5A, c5B])) [c5A, c5B]).1 = _
    have hms : max_size_calc [c5A, c5B] = 2 := by decide
    rw [hms, fill_ff_eq, pack_parts_cons_fst, pack_parts_cons_fst]
    show (pack_part_step c5fs
      (pack_part_step c5fs (List.replicate 2 0xFF) c5A).1 c5B).1 = _
    have hA : (pack_part_step c5fs (List.replicate 2 0xFF) c5A).1 =
        List.replicate 2 0xFF := by
      rw [pack_part_step_eq, h1]
    rw [hA, pack_part_step_eq, h2]
    decide
  constructor
  · rfl
  · rw [himg]
    decide

/-- C5 (amended): during pack, a part whose companion file is missing is
skipped (the step leaves the image unchanged and produces no report), packing
continues with the remaining parts, and — provided no other part whose
companion file exists overlaps its range, and offsets and sizes do not
overflow u64 — its destination region in the final image equals the global
fill byte 0xFF repeated for its full resolved size. -/
theorem claim_C5_missing_file_amended (fs : Fs) (l1 : List FirmwarePart)
    (p : FirmwarePart) (l2 : List FirmwarePart)
    (hmiss : fs (bin_name p.name) = none)
    (hbound : ∀ q ∈ l1 ++ p :: l2, q.offset + q.size < U64)
    (hdisj : ∀ q ∈ l1 ++ l2, fs (bin_name q.name) = none ∨
      p.offset + p.size ≤ q.offset ∨ q.offset + q.size ≤ p.offset) :
    slice (pack_firmware fs (l1 ++ p :: l2)).1 p.offset p.size =
      List.replicate p.size 0xFF ∧
    (∀ img, pack_part_step fs img p = (img, none)) := by
  constructor
  · show slice (pack_parts fs (fill_ff (max_size_calc (l1 ++ p :: l2)))
      (l1 ++ p :: l2)).1 p.offset p.size = _
    rw [fill_ff_eq]
    have hbN : ∀ q ∈ l1 ++ p :: l2, q.offset + q.size ≤
        (List.replicate (max_size_calc (l1 ++ p :: l2)) 0xFF).length := by
      intro q hq
      rw [List.length_replicate]
      have hm := mem_le_max_size _ q hq
      rwa [Nat.mod_eq_of_lt (hbound q hq)] at hm
    rw [pack_parts_slice_untouched fs _ _ p.offset p.size hbN ?hd]
    · exact slice_replicate _ _ _ _
        (by have h0 := hbN p (by simp); rwa [List.length_replicate] at h0)
    case hd =>
      intro q hq
      rcases List.mem_append.mp hq with hql | hqr
      · rcases hdisj q (List.mem_append.mpr (Or.inl hql)) with hn | hd2
        · exact Or.inl (part_region_none fs q hn)
        · exact Or.inr hd2
      · rcases List.mem_cons.mp hqr with rfl | hql2
        · exact Or.inl (part_region_none fs q hmiss)
        · rcases hdisj q (List.mem_append.mpr (Or.inr hql2)) with hn | hd2
          · exact Or.inl (part_region_none fs q hn)
          · exact Or.inr hd2
  · intro img
    unfold pack_part_step
    rw [hmiss]

theorem claim_C5_missing_file_amended_witness :
    slice (pack_firmware c5fsD ([] ++ c5A :: [c5D])).1 c5A.offset c5A.size =
      List.replicate c5A.size 0xFF := by
  have h := claim_C5_missing_file_amended c5fsD [] c5A [c5D] (by rfl)
    (by decide) ?hd
  · exact h.1
  case hd =>
    intro q hq
    right
    revert q
    decide

/-! ### The round-trip claim -/

theorem calculate_sizes_all_explicit (parts : List FirmwarePart)
    (is_unpack : Bool) (fs : Fs) (image_size : Nat)
    (hexp : ∀ p ∈ parts, p.has_explicit_size = true) :
    calculate_sizes parts is_unpack fs image_size = parts := by
  apply List.ext_getElem (calculate_sizes_length parts is_unpack fs image_size)
  intro i h1 h2
  have hD := calculate_sizes_getD parts is_unpack fs image_size i dpart h2
  rw [List.getD_eq_getElem _ _ h1, List.getD_eq_getElem _ _ h2] at hD
  rw [hD]
  exact (resolve_size_frame parts is_unpack
    (total_size_calc parts is_unpack image_size) fs i parts[i]).2.2.2.2.2
    (hexp parts[i] (List.getElem_mem h2))

/-- C1 as stated is false: the configuration `[c1A, c1B]` has all explicit
sizes, non-overlapping ranges, and a shared companion file x.bin long enough
for both parts, yet pack, unpack, re-pack does not reproduce the first image:
both parts share the name x, unpacking overwrites x.bin with the shorter
second slice, and the re-pack pads the first part. -/
theorem claim_C1_counterexample :
    c1A.has_explicit_size = true ∧ c1B.has_explicit_size = true ∧
    c1A.offset + c1A.size ≤ c1B.offset ∧
    c1fs (bin_name c1A.name) = some [1, 2, 3, 4] ∧
    c1fs (bin_name c1B.name) = some [1, 2, 3, 4] ∧
    c1A.size ≤ 4 ∧ c1B.size ≤ 4 ∧
    (pack_firmware ((unpack_firmware (pack_firmware c1fs [c1A, c1B]).1
        [c1A, c1B] c1fs).1) [c1A, c1B]).1 ≠
      (pack_firmware c1fs [c1A, c1B]).1 := by
  have hms : max_size_calc [c1A, c1B] = 6 := by decide
  have hrA : part_region c1fs c1A = some [1, 2, 3, 4] := by
    unfold part_region
    rfl
  have hrB : part_region c1fs c1B = some [1, 2] := by
    unfold part_region
    rfl
  have himg1 : (pack_firmware c1fs [c1A, c1B]).1 = [1, 2, 3, 4, 1, 2] := by
    show (pack_parts c1fs (fill_ff (max_size_calc [c1A, c1B]))
      [c1A, c1B]).1 = _
    rw [hms, fill_ff_eq, pack_parts_cons_fst, pack_parts_cons_fst]
    show (pack_part_step c1fs
      (pack_part_step c1fs (List.replicate 6 0xFF) c1A).1 c1B).1 = _
    have hA : (pack_part_step c1fs (List.replicate 6 0xFF) c1A).1 =
        write_at (List.replicate 6 0xFF) c1A.offset [1, 2, 3, 4] := by
      rw [pack_part_step_eq, hrA]
    rw [hA, pack_part_step_eq, hrB]
    decide
  have hkey : (unpack_firmware [1, 2, 3, 4, 1, 2] [c1A, c1B] c1fs).1
      (bin_name ['x']) = some [1, 2] := by
    have h := unpack_firmware_fs_lookup [1, 2, 3, 4, 1, 2] [c1A] c1B [] c1fs
      (by intro q hq; cases hq)
    exact h.trans (by decide)
  have hr1A : part_region
      ((unpack_firmware [1, 2, 3, 4, 1, 2] [c1A, c1B] c1fs).1) c1A =
      some [1, 2, 0xAA, 0xAA] := by
    unfold part_region
    rw [show (unpack_firmware [1, 2, 3, 4, 1, 2] [c1A, c1B] c1fs).1
      (bin_name c1A.name) = some [1, 2] from hkey]
    decide
  have hr1B : part_region
      ((unpack_firmware [1, 2, 3, 4, 1, 2] [c1A, c1B] c1fs).1) c1B =
      some [1, 2] := by
    unfold part_region
    rw [show (unpack_firmware [1, 2, 3, 4, 1, 2] [c1A, c1B] c1fs).1
      (bin_name c1B.name) = some [1, 2] from hkey]
    decide
  have himg2 : (pack_firmware
      ((unpack_firmware [1, 2, 3, 4, 1, 2] [c1A, c1B] c1fs).1)
      [c1A, c1B]).1 = [1, 2, 0xAA, 0xAA, 1, 2] := by
    show (pack_parts _ (fill_ff (max_size_calc [c1A, c1B])) [c1A, c1B]).1 = _
    rw [hms, fill_ff_eq, pack_parts_cons_fst, pack_parts_cons_fst]
    show (pack_part_step _
      (pack_part_step _ (List.replicate 6 0xFF) c1A).1 c1B).1 = _
    have hA : (pack_part_step
        ((unpack_firmware [1, 2, 3, 4, 1, 2] [c1A, c1B] c1fs).1)
        (List.replicate 6 0xFF) c1A).1 =
        write_at (List.replicate 6 0xFF) c1A.offset [1, 2, 0xAA, 0xAA] := by
      rw [pack_part_step_eq, hr1A]
    rw [hA, pack_part_step_eq, hr1B]
    decide
  refine ⟨rfl, rfl, by decide, rfl, rfl, by decide, by decide, ?_⟩
  rw [himg1, himg2]
  decide

/-- C1 (amended): for every configuration in which all parts have explicit
sizes, the part names are pairwise distinct, part ranges do not overlap,
`offset + size` does not overflow u64, and each companion part file has at
least its declared size (so no padding is applied), size resolution leaves
the parts unchanged, and packing an image, unpacking it with the same parts,
then re-packing from the extracted files yields a byte-identical image. -/
theorem claim_C1_round_trip_amended (fs : Fs) (parts : List FirmwarePart)
    (hnames : (parts.map (fun p => p.name)).Nodup)
    (hexp : ∀ p ∈ parts, p.has_explicit_size = true)
    (hbound : ∀ p ∈ parts, p.offset + p.size < U64)
    (hdisj : List.Pairwise (fun p q => p.offset + p.size ≤ q.offset ∨
      q.offset + q.size ≤ p.offset) parts)
    (hfiles : ∀ p ∈ parts, ∃ content, fs (bin_name p.name) = some content ∧
      p.size ≤ content.length) :
    (∀ (fs2 : Fs) (image_size : Nat),
      calculate_sizes parts false fs2 image_size = parts) ∧
    (pack_firmware ((unpack_firmware (pack_firmware fs parts).1 parts fs).1)
        parts).1 = (pack_firmware fs parts).1 := by
  refine ⟨fun fs2 ims => calculate_sizes_all_explicit parts false fs2 ims hexp,
    ?_⟩
  have hbN : ∀ q ∈ parts, q.offset + q.size ≤
      (List.replicate (max_size_calc parts) 0xFF).length := by
    intro q hq
    rw [List.length_replicate]
    have hm := mem_le_max_size _ q hq
    rwa [Nat.mod_eq_of_lt (hbound q hq)] at hm
  show (pack_parts _ (fill_ff (max_size_calc parts)) parts).1 =
    (pack_parts fs (fill_ff (max_size_calc parts)) parts).1
  apply pack_parts_congr
  intro p hp
  obtain ⟨input, hin, hlen⟩ := hfiles p hp
  obtain ⟨l1, l2, hdecomp⟩ := List.append_of_mem hp
  have htake : (input.take p.size).length = p.size := by
    rw [List.length_take]; omega
  have hregfs : part_region fs p = some (input.take p.size) := by
    unfold part_region
    rw [hin]
    simp [htake]
  have hl2disj : ∀ q ∈ l2, p.offset + p.size ≤ q.offset ∨
      q.offset + q.size ≤ p.offset := by
    have hd := hdisj
    rw [hdecomp] at hd
    exact (List.pairwise_cons.mp (List.pairwise_append.mp hd).2.1).1
  have hl2names : ∀ q ∈ l2, q.name ≠ p.name := by
    have hn := hnames
    rw [hdecomp, List.map_append, List.map_cons, List.nodup_append] at hn
    have hncons := hn.2.1
    rw [List.nodup_cons] at hncons
    intro q hq hqn
    exact hncons.1 (hqn ▸ List.mem_map_of_mem (fun r => r.name) hq)
  have hslice : slice (pack_firmware fs parts).1 p.offset p.size =
      input.take p.size := by
    show slice (pack_parts fs (fill_ff (max_size_calc parts)) parts).1 _ _ = _
    rw [fill_ff_eq, hdecomp]
    apply pack_parts_slice_written fs l1 p l2 _ (input.take p.size) ?hb hregfs
      ?hd
    case hb =>
      intro q hq
      rw [← hdecomp]
      exact hbN q (by rw [hdecomp]; exact hq)
    case hd =>
      intro q hq
      exact Or.inr (hl2disj q hq)
  have hkey : (unpack_firmware (pack_firmware fs parts).1 parts fs).1
      (bin_name p.name) =
      some (slice (pack_firmware fs parts).1 p.offset p.size) := by
    have h := unpack_firmware_fs_lookup ((pack_firmware fs parts).1) l1 p l2
      fs hl2names
    rw [← hdecomp] at h
    exact h
  have hreg1 : part_region
      ((unpack_firmware (pack_firmware fs parts).1 parts fs).1) p =
      some (input.take p.size) := by
    unfold part_region
    rw [hkey, hslice]
    simp [List.take_take, htake]
  rw [hreg1, hregfs]

theorem claim_C1_round_trip_amended_witness :
    (pack_firmware ((unpack_firmware (pack_firmware dfs [d1p, d2p]).1
        [d1p, d2p] dfs).1) [d1p, d2p]).1 = (pack_firmware dfs [d1p, d2p]).1 := by
  have h := claim_C1_round_trip_amended dfs [d1p, d2p] (by decide) (by decide)
    ?hb (by decide) ?hf
  · exact h.2
  case hb =>
    intro p hp
    fin_cases hp <;> decide
  case hf =>
    intro p hp
    fin_cases hp
    · exact ⟨[1, 2, 9], by decide, by decide⟩
    · exact ⟨[5, 6, 7], by decide, by decide⟩

/-! ### The layout parser claims -/

theorem ebind_ok {α β : Type} (a : α) (f : α → Except String β) :
    (Except.ok a >>= f) = f a := rfl

theorem epure_eq {α : Type} (a : α) :
    (pure a : Except String α) = Except.ok a := rfl

theorem parse_number_blank (s : List Char) (h : trim s = []) :
    parse_number s = .ok 0 := by
  unfold parse_number
  rw [h]
  rfl

theorem parse_padding_field_blank (f2 f3 : List Char)
    (rest3 : List (List Char)) (h : trim f3 = []) :
    parse_padding_field (f2 :: f3 :: rest3) = .ok 0 := by
  show (do
    let v ← parse_number f3
    pure (v % 256) : Except String Nat) = Except.ok 0
  rw [parse_number_blank _ h]
  rfl

theorem parse_line_ok_fields (line : List Char) (f0 f1 : List Char)
    (rest : List (List Char)) (p : FirmwarePart)
    (hsplit : split_comma (trim line) = f0 :: f1 :: rest)
    (h : parse_line line = .ok (some p)) :
    p.name = trim f0 ∧ p.use_custom_padding = decide (2 ≤ rest.length) ∧
    (∀ f2 f3 rest3, rest = f2 :: f3 :: rest3 → trim f3 = [] →
      p.padding_byte = 0) := by
  unfold parse_line at h
  by_cases he : (trim line).isEmpty
  · rw [if_pos he] at h; cases h
  rw [if_neg he] at h
  by_cases hc : starts_with (trim line) ['#'] = true
  · rw [if_pos hc] at h; cases h
  rw [if_neg hc] at h
  rw [hsplit] at h
  dsimp only at h
  cases ho : parse_number f1 with
  | error e => rw [ho] at h; cases h
  | ok offv =>
    rw [ho, ebind_ok] at h
    cases hsz : parse_size_field rest with
    | error e => rw [hsz] at h; cases h
    | ok szv =>
      rw [hsz, ebind_ok] at h
      cases hpb : parse_padding_field rest with
      | error e => rw [hpb] at h; cases h
      | ok pbv =>
        rw [hpb, ebind_ok, epure_eq] at h
        simp only [Except.ok.injEq, Option.some.injEq] at h
        subst h
        refine ⟨rfl, rfl, ?_⟩
        intro f2 f3 rest3 hr hblank
        subst hr
        rw [parse_padding_field_blank _ _ _ hblank] at hpb
        injection hpb with hv
        exact hv.symm

/-- C8 as stated is false: the config line ",0x10" is accepted as a part (it
is non-blank, not a comment, and has two comma-separated fields), yet the
part it produces has an empty name, because the first field is blank and the
parser does not enforce non-emptiness. -/
theorem claim_C8_counterexample :
    parse_line ",0x10".toList = .ok (some c8bad) ∧ c8bad.name = [] :=
  ⟨rfl, rfl⟩

/-- C8 (amended): every config line accepted as a part yields a part whose
name is the trimmed first field; non-emptiness is not enforced, so the name is
empty exactly when the trimmed first field is empty. -/
theorem claim_C8_name_amended (line : List Char) (f0 f1 : List Char)
    (rest : List (List Char)) (p : FirmwarePart)
    (hsplit : split_comma (trim line) = f0 :: f1 :: rest)
    (h : parse_line line = .ok (some p)) :
    p.name = trim f0 ∧ (p.name = [] ↔ trim f0 = []) := by
  have hf := parse_line_ok_fields line f0 f1 rest p hsplit h
  exact ⟨hf.1, by rw [hf.1]⟩

theorem claim_C8_name_amended_witness :
    parse_line "hdr,0x10".toList = .ok (some c8p) ∧
    c8p.name = trim "hdr".toList := by
  refine ⟨by rfl, ?_⟩
  have h := claim_C8_name_amended "hdr,0x10".toList "hdr".toList
    "0x10".toList [] c8p (by decide) (by rfl)
  exact h.1

/-- C10: a config line with exactly four comma-separated fields whose fourth
field is blank or whitespace-only sets the padding byte of the part to 0 —
a blank numeric field parses as 0 — and flags the padding as explicitly set,
rather than applying the 0xFF default used when the fourth field is absent. -/
theorem claim_C10_blank_fourth_field (line : List Char)
    (f0 f1 f2 f3 : List Char) (p : FirmwarePart)
    (hsplit : split_comma (trim line) = [f0, f1, f2, f3])
    (hblank : trim f3 = [])
    (h : parse_line line = .ok (some p)) :
    p.padding_byte = 0 ∧ p.use_custom_padding = true := by
  have hf := parse_line_ok_fields line f0 f1 [f2, f3] p hsplit h
  exact ⟨hf.2.2 f2 f3 [] rfl hblank, hf.2.1⟩

theorem claim_C10_blank_fourth_field_witness :
    parse_line "a,0,16,".toList = .ok (some c10p) ∧
    c10p.padding_byte = 0 ∧ c10p.use_custom_padding = true := by
  refine ⟨by rfl, ?_⟩
  exact claim_C10_blank_fourth_field "a,0,16,".toList "a".toList "0".toList
    "16".toList "".toList c10p (by decide) (by decide) (by rfl)

/-! ### The number-parsing claim -/

theorem to_digit_ws (c : Char) (radix : Nat)
    (h : is_rust_whitespace c = true) : to_digit c radix = none := by
  unfold is_rust_whitespace at h
  simp only [Bool.or_eq_true, decide_eq_true_eq] at h
  have hn : c.toNat = 32 ∨ c.toNat = 9 ∨ c.toNat = 10 ∨ c.toNat = 13 := by
    rcases h with ((h | h) | h) | h <;> subst h <;> simp [Char.toNat]
  unfold to_digit
  rw [if_neg (by omega), if_neg (by omega), if_neg (by omega)]

theorem to_digit_none_mono (c : Char) (h : to_digit c 16 = none) :
    to_digit c 10 = none := by
  unfold to_digit at h ⊢
  by_cases h1 : 48 ≤ c.toNat ∧ c.toNat ≤ 57
  · exfalso
    rw [if_pos h1] at h
    simp only at h
    rw [if_pos (by omega)] at h
    cases h
  · rw [if_neg h1] at h ⊢
    by_cases h2 : 97 ≤ c.toNat ∧ c.toNat ≤ 122
    · rw [if_pos h2] at h ⊢
      simp only at h ⊢
      rw [if_neg (by omega)]
    · rw [if_neg h2] at h ⊢
      by_cases h3 : 65 ≤ c.toNat ∧ c.toNat ≤ 90
      · rw [if_pos h3] at h ⊢
        simp only at h ⊢
        rw [if_neg (by omega)]
      · rw [if_neg h3]

theorem dropWhile_no_ws (t : List Char)
    (h : ∀ c ∈ t, is_rust_whitespace c = false) :
    t.dropWhile is_rust_whitespace = t := by
  cases t with
  | nil => rfl
  | cons a t =>
    rw [List.dropWhile_cons_of_neg]
    simp [h a (by simp)]

theorem trim_no_ws (s : List Char)
    (h : ∀ c ∈ s, is_rust_whitespace c = false) : trim s = s := by
  unfold trim
  rw [dropWhile_no_ws s h, dropWhile_no_ws]
  · rw [List.reverse_reverse]
  · intro c hc
    exact h c (List.mem_reverse.mp hc)

theorem trim_all_ws (s : List Char)
    (h : ∀ c ∈ s, is_rust_whitespace c = true) : trim s = [] := by
  unfold trim
  rw [List.dropWhile_eq_nil_iff.mpr h]
  rfl

theorem foldl_digit_le (radix : Nat) (hr : 1 ≤ radix) (s : List Char) :
    ∀ acc : Nat,
      acc ≤ s.foldl (fun a c => a * radix + (to_digit c radix).getD 0) acc := by
  induction s with
  | nil => intro acc; simp
  | cons c cs ih =>
    intro acc
    simp only [List.foldl_cons]
    refine le_trans ?_ (ih (acc * radix + (to_digit c radix).getD 0))
    have h1 : acc * 1 ≤ acc * radix := Nat.mul_le_mul_left acc hr
    omega

theorem digits_loop_ok (radix : Nat) (hr : 1 ≤ radix) :
    ∀ (s : List Char) (acc : Nat),
    (∀ c ∈ s, to_digit c radix ≠ none) →
    s.foldl (fun a c => a * radix + (to_digit c radix).getD 0) acc < U64 →
    digits_loop radix acc s =
      .ok (s.foldl (fun a c => a * radix + (to_digit c radix).getD 0) acc) := by
  intro s
  induction s with
  | nil => intro acc _ _; rfl
  | cons c cs ih =>
    intro acc hv hlt
    unfold digits_loop
    cases hd : to_digit c radix with
    | none => exact absurd hd (hv c (by simp))
    | some d =>
      simp only [List.foldl_cons, hd, Option.getD_some] at hlt ⊢
      rw [if_pos ?hlt2]
      case hlt2 =>
        refine lt_of_le_of_lt ?_ hlt
        exact foldl_digit_le radix hr cs _
      rw [ih (acc * radix + d) (fun x hx => hv x (by simp [hx])) hlt]

theorem digits_loop_error (radix : Nat) (s : List Char) (c : Char)
    (hc : c ∈ s) (hd : to_digit c radix = none) :
    ∀ acc, ∃ e, digits_loop radix acc s = .error e := by
  induction s with
  | nil => cases hc
  | cons a t ih =>
    intro acc
    unfold digits_loop
    cases ha : to_digit a radix with
    | none => exact ⟨_, rfl⟩
    | some d =>
      rcases List.mem_cons.mp hc with rfl | hct
      · rw [ha] at hd; cases hd
      · simp only
        by_cases hlt : acc * radix + d < U64
        · rw [if_pos hlt]
          exact ih hct _
        · rw [if_neg hlt]
          exact ⟨_, rfl⟩

theorem from_str_radix_ok (c : Char) (cs : List Char) (radix : Nat)
    (hr : 1 ≤ radix) (hplus : c ≠ '+')
    (hdig : ∀ x ∈ c :: cs, to_digit x radix ≠ none)
    (hlt : digits_value radix (c :: cs) < U64) :
    from_str_radix (c :: cs) radix = .ok (digits_value radix (c :: cs)) := by
  unfold from_str_radix
  simp only [if_neg hplus]
  exact digits_loop_ok radix hr (c :: cs) 0 hdig hlt

theorem from_str_radix_error (s : List Char) (radix : Nat) (c : Char)
    (hc : c ∈ s) (hplus : c ≠ '+') (hd : to_digit c radix = none) :
    ∃ e, from_str_radix s radix = .error e := by
  cases s with
  | nil => cases hc
  | cons a t =>
    unfold from_str_radix
    by_cases ha : a = '+'
    · subst ha
      simp only [if_pos rfl]
      rcases List.mem_cons.mp hc with rfl | hct
      · exact absurd rfl hplus
      · cases t with
        | nil => cases hct
        | cons b u =>
          exact digits_loop_error radix (b :: u) c hct hd 0
    · simp only [if_neg ha]
      exact digits_loop_error radix (a :: t) c hc hd 0

theorem hex_digit_not_ws (h : List Char) (radix : Nat)
    (hdig : ∀ c ∈ h, to_digit c radix ≠ none) :
    ∀ c ∈ h, is_rust_whitespace c = false := by
  intro c hc
  cases hws : is_rust_whitespace c
  · rfl
  · exact absurd (to_digit_ws c radix hws) (hdig c hc)

theorem parse_number_ws (s : List Char)
    (h : ∀ c ∈ s, is_rust_whitespace c = true) : parse_number s = .ok 0 := by
  unfold parse_number
  rw [trim_all_ws s h]
  rfl

theorem parse_number_hex (h : List Char) (v : Nat) (hne : h ≠ [])
    (hdig : ∀ c ∈ h, to_digit c 16 ≠ none)
    (hval : digits_value 16 h = v) (hlt : v < U64) :
    parse_number (['0', 'x'] ++ h) = .ok v := by
  subst hval
  unfold parse_number
  have hnws : ∀ c ∈ ('0' :: 'x' :: h), is_rust_whitespace c = false := by
    intro c hc
    rcases List.mem_cons.mp hc with rfl | hc2
    · rfl
    rcases List.mem_cons.mp hc2 with rfl | hc3
    · rfl
    · exact hex_digit_not_ws h 16 hdig c hc3
  rw [show trim (['0', 'x'] ++ h) = '0' :: 'x' :: h from trim_no_ws _ hnws]
  rw [if_neg (by simp), if_pos (by simp [starts_with, List.isPrefixOf])]
  cases h with
  | nil => exact absurd rfl hne
  | cons c cs =>
    show from_str_radix (c :: cs) 16 = _
    have hcp : c ≠ '+' := by
      intro hcc
      subst hcc
      exact hdig '+' (by simp) (by decide)
    exact from_str_radix_ok c cs 16 (by norm_num) hcp hdig hlt

theorem parse_number_hexX (h : List Char) (v : Nat) (hne : h ≠ [])
    (hdig : ∀ c ∈ h, to_digit c 16 ≠ none)
    (hval : digits_value 16 h = v) (hlt : v < U64) :
    parse_number (['0', 'X'] ++ h) = .ok v := by
  subst hval
  unfold parse_number
  have hnws : ∀ c ∈ ('0' :: 'X' :: h), is_rust_whitespace c = false := by
    intro c hc
    rcases List.mem_cons.mp hc with rfl | hc2
    · rfl
    rcases List.mem_cons.mp hc2 with rfl | hc3
    · rfl
    · exact hex_digit_not_ws h 16 hdig c hc3
  rw [show trim (['0', 'X'] ++ h) = '0' :: 'X' :: h from trim_no_ws _ hnws]
  rw [if_neg (by simp), if_pos (by simp [starts_with, List.isPrefixOf])]
  cases h with
  | nil => exact absurd rfl hne
  | cons c cs =>
    show from_str_radix (c :: cs) 16 = _
    have hcp : c ≠ '+' := by
      intro hcc
      subst hcc
      exact hdig '+' (by simp) (by decide)
    exact from_str_radix_ok c cs 16 (by norm_num) hcp hdig hlt

theorem parse_number_dec (d : List Char) (v : Nat) (hne : d ≠ [])
    (hdig : ∀ c ∈ d, to_digit c 10 ≠ none)
    (hval : digits_value 10 d = v) (hlt : v < U64) :
    parse_number d = .ok v := by
  subst hval
  unfold parse_number
  rw [trim_no_ws d (hex_digit_not_ws d 10 hdig)]
  have hie : d.isEmpty = false := by
    cases d
    · exact absurd rfl hne
    · rfl
  rw [if_neg (by simp [hie])]
  rw [if_neg ?hpre]
  case hpre =>
    simp only [Bool.or_eq_true]
    rintro (hp | hp)
    · obtain ⟨t, ht⟩ := List.isPrefixOf_iff_prefix.mp hp
      have hx : 'x' ∈ d := by rw [← ht]; simp
      exact hdig 'x' hx (by decide)
    · obtain ⟨t, ht⟩ := List.isPrefixOf_iff_prefix.mp hp
      have hx : 'X' ∈ d := by rw [← ht]; simp
      exact hdig 'X' hx (by decide)
  cases d with
  | nil => exact absurd rfl hne
  | cons c cs =>
    have hcp : c ≠ '+' := by
      intro hcc
      subst hcc
      exact hdig '+' (by simp) (by decide)
    exact from_str_radix_ok c cs 10 (by norm_num) hcp hdig hlt

theorem parse_number_invalid (s : List Char) (c : Char)
    (hc : c ∈ trim s) (hd : to_digit c 16 = none)
    (hplus : c ≠ '+') (hx : c ≠ 'x') (hX : c ≠ 'X') :
    ∃ e, parse_number s = .error e := by
  unfold parse_number
  have hne : (trim s).isEmpty = false := by
    cases ht : trim s
    · rw [ht] at hc; cases hc
    · rfl
  rw [if_neg (by simp [hne])]
  by_cases hpre :
      (starts_with (trim s) ['0', 'x'] || starts_with (trim s) ['0', 'X']) = true
  · rw [if_pos hpre]
    have hc0 : c ≠ '0' := by
      intro hcc
      subst hcc
      exact absurd hd (by decide)
    simp only [Bool.or_eq_true] at hpre
    rcases hpre with hp | hp
    · obtain ⟨t, ht⟩ := List.isPrefixOf_iff_prefix.mp hp
      rw [← ht]
      have hct : c ∈ t := by
        rw [← ht] at hc
        rcases List.mem_append.mp hc with hcl | hcr
        · exfalso
          rcases List.mem_cons.mp hcl with rfl | hcl2
          · exact hc0 rfl
          rcases List.mem_cons.mp hcl2 with rfl | hcl3
          · exact hx rfl
          · cases hcl3
        · exact hcr
      exact from_str_radix_error t 16 c hct hplus hd
    · obtain ⟨t, ht⟩ := List.isPrefixOf_iff_prefix.mp hp
      rw [← ht]
      have hct : c ∈ t := by
        rw [← ht] at hc
        rcases List.mem_append.mp hc with hcl | hcr
        · exfalso
          rcases List.mem_cons.mp hcl with rfl | hcl2
          · exact hc0 rfl
          rcases List.mem_cons.mp hcl2 with rfl | hcl3
          · exact hX rfl
          · cases hcl3
        · exact hcr
      exact from_str_radix_error t 16 c hct hplus hd
  · rw [if_neg hpre]
    exact from_str_radix_error (trim s) 10 c hc hplus (to_digit_none_mono c hd)

/-- C6: for every numeric field string, a whitespace-only (or empty) field
parses as 0; a field of hex digits behind a 0x or 0X prefix parses as its
hexadecimal value, and a field of decimal digits as its decimal value, so the
two spellings of the same value parse equal; and a field containing a
character that is no digit of the selected radix (and is not the sign or the
radix prefix) is a parse failure. -/
theorem claim_C6_parse_number :
    (∀ s : List Char, (∀ c ∈ s, is_rust_whitespace c = true) →
      parse_number s = .ok 0) ∧
    (∀ (h : List Char) (v : Nat), h ≠ [] → (∀ c ∈ h, to_digit c 16 ≠ none) →
      digits_value 16 h = v → v < U64 →
      parse_number (['0', 'x'] ++ h) = .ok v ∧
      parse_number (['0', 'X'] ++ h) = .ok v) ∧
    (∀ (d : List Char) (v : Nat), d ≠ [] → (∀ c ∈ d, to_digit c 10 ≠ none) →
      digits_value 10 d = v → v < U64 → parse_number d = .ok v) ∧
    (∀ (h d : List Char) (v : Nat), h ≠ [] → d ≠ [] →
      (∀ c ∈ h, to_digit c 16 ≠ none) → (∀ c ∈ d, to_digit c 10 ≠ none) →
      digits_value 16 h = v → digits_value 10 d = v → v < U64 →
      parse_number (['0', 'x'] ++ h) = parse_number d) ∧
    (∀ (s : List Char) (c : Char), c ∈ trim s → to_digit c 16 = none →
      c ≠ '+' → c ≠ 'x' → c ≠ 'X' → ∃ e, parse_number s = .error e) := by
  refine ⟨parse_number_ws, ?_, parse_number_dec, ?_, parse_number_invalid⟩
  · intro h v hne hdig hval hlt
    exact ⟨parse_number_hex h v hne hdig hval hlt,
      parse_number_hexX h v hne hdig hval hlt⟩
  · intro h d v hne hdne hdig hddig hval hdval hlt
    rw [parse_number_hex h v hne hdig hval hlt,
      parse_number_dec d v hdne hddig hdval hlt]

theorem claim_C6_parse_number_witness :
    parse_number "0x40".toList = .ok 64 ∧
    parse_number "64".toList = .ok 64 ∧
    parse_number "0x40".toList = parse_number "64".toList ∧
    parse_number "  ".toList = .ok 0 ∧
    (∃ e, parse_number "12z3".toList = .error e) := by
  obtain ⟨hws, hhex, hdec, heq, hinv⟩ := claim_C6_parse_number
  refine ⟨?_, ?_, ?_, ?_, ?_⟩
  · exact (hhex ['4', '0'] 64 (by decide) (by decide) (by decide) (by decide)).1
  · exact hdec ['6', '4'] 64 (by decide) (by decide) (by decide) (by decide)
  · exact heq ['4', '0'] ['6', '4'] 64 (by decide) (by decide) (by decide)
      (by decide) (by decide) (by decide) (by decide)
  · exact hws [' ', ' '] (by decide)
  · exact hinv "12z3".toList 'z' (by decide) (by decide) (by decide)
      (by decide) (by decide)

end RipNStitch
